import Mathlib

/-!
Verification of the test-extraction pipeline (scripts 03_extract_tests.py,
04_deduplicate.py, 05_normalize.py) via a shallow embedding.

Conventions of the embedding:
* Python strings are Lean `String`s viewed as their `List Char` data; the
  sources only ever handle text where byte offsets and character offsets
  agree (CPython column offsets are utf-8 byte based), so the embedding
  works character-wise.
* `ast.parse` and `black.format_str` are external collaborators (the spec
  treats them as such); they are passed as function parameters
  `parse : String → Except String PyModule` and
  `black : String → Except String String`, where `Except.error` models a
  raised exception carrying `str(e)`.
* Python machine-level concerns (files, multiprocessing, logging) are I/O
  plumbing and are modelled by passing the file contents / walked file
  list directly.
-/

/-! Basic Python string operations, character-wise. -/

/-- Python `needle in hay` (substring containment). -/
def pyIn (needle hay : String) : Bool :=
  hay.data.tails.any (fun t => needle.data.isPrefixOf t)

/-- Python `str.lower` (ASCII view of the sources handled here). -/
def pyLower (s : String) : String :=
  String.mk (s.data.map Char.toLower)

/-- Python `str.startswith`. -/
def pyStartsWith (s pre : String) : Bool :=
  pre.data.isPrefixOf s.data

/-- Python `str.endswith`. -/
def pyEndsWith (s suf : String) : Bool :=
  suf.data.isSuffixOf s.data

/-- Python `str.replace(pat, rep)` on character lists: repeatedly replace the
leftmost occurrence of `pat`, scanning left to right without rescanning the
replacement.  The `fuel` argument is an upper bound on the number of scanning
steps; the wrapper `pyReplace` passes the length of the subject string, which
suffices because the sources only call it with non-empty patterns (each step
consumes at least one character of the subject). -/
def pyReplaceFuel (patD repD : List Char) : Nat → List Char → List Char
  | 0, cs => cs
  | _+1, [] => []
  | fuel+1, c :: cs =>
    if patD.isPrefixOf (c :: cs) then
      repD ++ pyReplaceFuel patD repD fuel ((c :: cs).drop patD.length)
    else
      c :: pyReplaceFuel patD repD fuel cs

/-- Python `s.replace(pat, rep)`. -/
def pyReplace (s pat rep : String) : String :=
  String.mk (pyReplaceFuel pat.data rep.data s.data.length s.data)

/-- The single-quote character, written by code point to keep the sources of
the string literals `f'{` and `}'` explicit. -/
def quoteChar : Char := Char.ofNat 39

/-- The literal `f'{` of `03_extract_tests.py` line 24. -/
def fstrPat : String := String.mk [Char.ofNat 102, quoteChar, Char.ofNat 123]

/-- The literal `}'` of `03_extract_tests.py` line 24. -/
def closePat : String := String.mk [Char.ofNat 125, quoteChar]

/-- Python `str.splitlines(keepends=True)` restricted to `\n` line ends
(the newline convention of the corpus handled by the scripts); the
accumulator holds the current line reversed. -/
def splitLinesKeepAux : List Char → List Char → List (List Char)
  | acc, [] => if acc.isEmpty then [] else [acc.reverse]
  | acc, c :: cs =>
    if c = Char.ofNat 10 then
      (acc.reverse ++ [Char.ofNat 10]) :: splitLinesKeepAux [] cs
    else
      splitLinesKeepAux (c :: acc) cs

/-- Split a source text into its lines, keeping the line ends. -/
def splitLinesKeep (cs : List Char) : List (List Char) :=
  splitLinesKeepAux [] cs

/-! The Python abstract syntax tree, restricted to what
`extract_test_functions` inspects.  Expression nodes other than the shapes
below are never read by the script, so they collapse to `PyExpr.other`;
statement nodes other than `FunctionDef` and `ClassDef` collapse to
`PyNode.other` (they carry their child statements, which `ast.walk` still
visits).  `ast.walk` also yields expression nodes, but those are never
`FunctionDef`/`ClassDef` instances (a `def`/`class` statement cannot occur
inside an expression), so the embedding walks statements only. -/

/-- CPython location attributes of a node (1-based line numbers, 0-based
column offsets). For a decorated `FunctionDef`, `lineno` points at the
`def` keyword (Python ≥ 3.8), not at the first decorator. -/
structure PyLoc where
  lineno : Nat
  col_offset : Nat
  end_lineno : Nat
  end_col_offset : Nat
deriving DecidableEq

/-- Expression shapes inspected by the extractor: `ast.Name` (the only shape
with an `id` attribute), `ast.Attribute` (the only shape with an `attr`
attribute), `ast.Call` (only its `func` is read). -/
inductive PyExpr where
  | name (id : String)
  | attribute (value : PyExpr) (attr : String)
  | call (func : PyExpr)
  | other
deriving DecidableEq

mutual
/-- Statement nodes: `FunctionDef`, `ClassDef`, or anything else. -/
inductive PyNode where
  | functionDef (name : String) (decorators : List PyExpr) (loc : PyLoc) (body : PyBody)
  | classDef (name : String) (bases : List PyExpr) (loc : PyLoc) (body : PyBody)
  | other (body : PyBody)
/-- A statement list (a separate inductive so all recursion is structural). -/
inductive PyBody where
  | nil
  | cons (head : PyNode) (tail : PyBody)
end

/-- View a statement list as a Lean list. -/
def PyBody.toList : PyBody → List PyNode
  | .nil => []
  | .cons h t => h :: t.toList

/-- Build a statement list from a Lean list. -/
def PyBody.ofList : List PyNode → PyBody
  | [] => .nil
  | h :: t => .cons h (PyBody.ofList t)

/-- A parsed module is its list of top-level statements (the `Module` node
itself is neither a `FunctionDef` nor a `ClassDef`, so walking its children
is equivalent to walking it). -/
abbrev PyModule := List PyNode

mutual
/-- Number of statement nodes of a node including itself. -/
def sizeNode : PyNode → Nat
  | .functionDef _ _ _ b => 1 + sizeBody b
  | .classDef _ _ _ b => 1 + sizeBody b
  | .other b => 1 + sizeBody b
/-- Number of statement nodes of a statement list. -/
def sizeBody : PyBody → Nat
  | .nil => 0
  | .cons h t => sizeNode h + sizeBody t
end

/-- Total number of statement nodes of a list of nodes. -/
def sizeNodes : List PyNode → Nat
  | [] => 0
  | n :: ns => sizeNode n + sizeNodes ns

/-- Child statements of a node (`ast.iter_child_nodes` restricted to
statements). -/
def childrenOf : PyNode → List PyNode
  | .functionDef _ _ _ b => b.toList
  | .classDef _ _ _ b => b.toList
  | .other b => b.toList

/-- One step of `ast.walk`'s breadth-first queue, with explicit fuel; each
step pops one node and enqueues its children, so `sizeNodes` of the initial
queue is exactly enough fuel. -/
def walkBFSFuel : Nat → List PyNode → List PyNode
  | 0, _ => []
  | _+1, [] => []
  | fuel+1, n :: q => n :: walkBFSFuel fuel (q ++ childrenOf n)

/-- CPython `ast.walk`: breadth-first enumeration of all nodes. -/
def walkBFS (roots : List PyNode) : List PyNode :=
  walkBFSFuel (sizeNodes roots) roots

/-- CPython `ast.get_source_segment(source, node)` (default `padded=False`):
slice the kept-ends line list of `source` from `(lineno, col_offset)` to
`(end_lineno, end_col_offset)`; `none` models the `IndexError` raised on an
out-of-range line index (caught by the callers' `except` and treated as a
skip). -/
def getSourceSegment (source : String) (loc : PyLoc) : Option String :=
  let lines := splitLinesKeep source.data
  let lineno := loc.lineno - 1
  let end_lineno := loc.end_lineno - 1
  if lineno = end_lineno then
    match lines.get? lineno with
    | some l => some (String.mk ((l.take loc.end_col_offset).drop loc.col_offset))
    | none => none
  else
    match lines.get? lineno, lines.get? end_lineno with
    | some fl, some ll =>
      some (String.mk ((fl.drop loc.col_offset)
        ++ ((lines.take end_lineno).drop (lineno + 1)).flatten
        ++ ll.take loc.end_col_offset))
    | _, _ => none

/-! The extractor (`03_extract_tests.py`, `extract_test_functions`). -/

/-- One extracted test (`name`/`body`/`file` keys, with the optional
`class` key modelled as `cls`; `none` means the key is absent). -/
structure TestRecord where
  name : String
  body : String
  file : String
  cls : Option String
deriving DecidableEq

/-- Line 39-43: the decorator is an `ast.Call` whose `func` has an `attr`
attribute (i.e. is an `ast.Attribute`) equal to `"mark"`. -/
def decoratorIsMarkCall : PyExpr → Bool
  | .call (.attribute _ attr) => attr == ("mark")
  | _ => false

/-- Line 44-49: the decorator is an `ast.Name` whose `id` contains
`"test"` case-insensitively. -/
def decoratorIsTestName : PyExpr → Bool
  | .name id => pyIn ("test") (pyLower id)
  | _ => false

/-- Line 35-50: a `FunctionDef` qualifies as a test function. -/
def isTestFunctionDef (name : String) (decorators : List PyExpr) : Bool :=
  pyStartsWith name ("test_") || pyEndsWith name ("_test")
    || decorators.any decoratorIsMarkCall || decorators.any decoratorIsTestName

/-- Line 65-67: some base has an `id` attribute (i.e. is an `ast.Name`)
whose `id` contains `"TestCase"` (case-sensitively). -/
def baseHasTestCase : PyExpr → Bool
  | .name id => pyIn ("TestCase") id
  | _ => false

/-- A `ClassDef` qualifies as a unittest `TestCase` container. -/
def isTestCaseClass (bases : List PyExpr) : Bool :=
  bases.any baseHasTestCase

/-- Line 51-62: emit the record of one qualifying `FunctionDef`; `none` from
`getSourceSegment` (a raised exception) and a falsy (empty) segment both
skip the record silently. -/
def recordForFunction (content fileName name : String) (loc : PyLoc) : List TestRecord :=
  match getSourceSegment content loc with
  | some s => if s.data.isEmpty then [] else [⟨name, s, fileName, none⟩]
  | none => []

/-- Line 68-84: emit the class-qualified records of the directly-contained
methods of a qualifying `ClassDef` whose names start with `test_` or
`test`. -/
def classMethodRecords (content fileName cname : String) (body : PyBody) : List TestRecord :=
  body.toList.flatMap (fun item =>
    match item with
    | .functionDef mname _ mloc _ =>
      if pyStartsWith mname ("test_") || pyStartsWith mname ("test") then
        match getSourceSegment content mloc with
        | some s =>
          if s.data.isEmpty then [] else
            [⟨cname ++ (".") ++ mname, s, fileName, some cname⟩]
        | none => []
      else []
    | _ => [])

/-- Records contributed by one walked node (the two `if isinstance` blocks
of the walk loop; a node is at most one of `FunctionDef`/`ClassDef`). -/
def recordsForNode (content fileName : String) : PyNode → List TestRecord
  | .functionDef name decorators loc _ =>
    if isTestFunctionDef name decorators then
      recordForFunction content fileName name loc
    else []
  | .classDef cname bases _ body =>
    if isTestCaseClass bases then
      classMethodRecords content fileName cname body
    else []
  | .other _ => []

/-- Line 16: the cheap pre-filter on the file text. -/
def hasTestTerm (content : String) : Bool :=
  pyIn ("test") (pyLower content) || pyIn ("unittest") (pyLower content)
    || pyIn ("pytest") (pyLower content)

/-- `extract_test_functions` (lines 9-88), with the file contents passed
directly (the `open`/`read` is I/O) and `ast.parse` passed as the `parse`
collaborator.  Note two source facts preserved exactly: the retry parses
`content_fixed` but `ast.get_source_segment` is always called on `content`
(line 52/73), and the retry's "fix" replaces each of two substrings by
itself. -/
def extract_test_functions (parse : String → Except String PyModule)
    (fileName content : String) : List TestRecord × Option String :=
  if !(hasTestTerm content) then ([], none)
  else
    match parse content with
    | .ok tree => ((walkBFS tree).flatMap (recordsForNode content fileName), none)
    | .error _ =>
      let content_fixed := pyReplace (pyReplace content fstrPat fstrPat) closePat closePat
      match parse content_fixed with
      | .ok tree => ((walkBFS tree).flatMap (recordsForNode content fileName), none)
      | .error e => ([], some (("SyntaxError: ") ++ e))

/-! Candidate-file selection (`03_extract_tests.py`, `process_repo`
lines 113-118).  `os.walk` is stdlib I/O; it is modelled by the list of
`(directory path components, file name)` pairs it yields, whose roots all
extend the repository path `../clones/<repoName>`. -/

/-- Join path components with `/` (POSIX `os.path.join` as used by
`os.walk` roots). -/
def joinPath (comps : List String) : String :=
  String.mk (List.intercalate [Char.ofNat 47] (comps.map String.data))

/-- Line 117: the per-file selection test, where `root` is the full path
string of the containing directory as yielded by `os.walk`. -/
def selectFile (root fileName : String) : Bool :=
  pyEndsWith fileName (".py")
    && (pyIn ("test") (pyLower fileName) || pyIn ("test") (pyLower root))

/-- The path of a repository clone: `../clones/<repoName>` as components. -/
def repoPathComps (repoName : String) : List String :=
  [(".."), ("clones"), repoName]

/-- Lines 113-118: the `test_files` list — exactly the walked files passing
`selectFile`; these are the only files the extractor is invoked on. -/
def test_files (walked : List (List String × String)) :
    List (List String × String) :=
  walked.filter (fun rf => selectFile (joinPath rf.1) rf.2)

/-! The deduplicator (`04_deduplicate.py`). -/

/-- One dataset entry (`{repo, file, tests}`). -/
structure FileEntry where
  repo : String
  file : String
  tests : List TestRecord
deriving DecidableEq

/-- All tests of the dataset in iteration order (entries in order, each
entry's tests in order). -/
def allTests (data : List FileEntry) : List TestRecord :=
  data.flatMap (fun e => e.tests)

/-- One step of building the `unique_tests` dict (lines 35-44): insert
under key `test['body']` only if the key is absent (first-seen wins).  The
dict is modelled as an insertion-ordered association list. -/
def gStep (acc : List (String × TestRecord)) (t : TestRecord) :
    List (String × TestRecord) :=
  if (acc.find? (fun p => p.1 == t.body)).isSome then acc
  else acc ++ [(t.body, t)]

/-- The `unique_tests` dict after the first pass over the data. -/
def buildUniqueTests (data : List FileEntry) : List (String × TestRecord) :=
  data.foldl (fun acc entry => entry.tests.foldl gStep acc) []

/-- Dict lookup `unique_tests[b]`. -/
def lookupUT (ut : List (String × TestRecord)) (b : String) : Option TestRecord :=
  (ut.find? (fun p => p.1 == b)).map (fun p => p.2)

/-- Line 52-53: `test['body'] in unique_tests and unique_tests[test['body']]
== test` (dict equality of the record). -/
def keepTest (ut : List (String × TestRecord)) (t : TestRecord) : Bool :=
  (lookupUT ut t.body).isSome && decide (lookupUT ut t.body = some t)

/-- The `repo:file` composite key of line 61. -/
def entryKey (e : FileEntry) : String :=
  e.repo ++ (":") ++ e.file

/-- One iteration of the second pass (lines 50-64); the state is
`(deduplicated_data, seen_files)`. -/
def dedupStep (ut : List (String × TestRecord))
    (acc : List FileEntry × List String) (entry : FileEntry) :
    List FileEntry × List String :=
  let unique_entry_tests := entry.tests.filter (keepTest ut)
  if unique_entry_tests.isEmpty then acc
  else if acc.2.contains (entryKey entry) then acc
  else (acc.1 ++ [⟨entry.repo, entry.file, unique_entry_tests⟩],
        acc.2 ++ [entryKey entry])

/-- The deduplicated dataset. -/
def deduplicated_data (data : List FileEntry) : List FileEntry :=
  (data.foldl (dedupStep (buildUniqueTests data)) ([], [])).1

/-- The counters of `dedup_stats` relevant to the claims (lines 14-23 and
66-70); the duplicate counts are plain integer subtractions. -/
structure DedupStats where
  original_entries : Nat
  original_tests : Nat
  unique_entries : Nat
  unique_tests : Nat
  duplicate_entries : Int
  duplicate_tests : Int
deriving DecidableEq

/-- Compute `dedup_stats` for a dataset. -/
def dedup_stats (data : List FileEntry) : DedupStats :=
  let original_entries := data.length
  let original_tests := (data.map (fun e => e.tests.length)).sum
  let unique_entries := (deduplicated_data data).length
  let unique_tests := (buildUniqueTests data).length
  { original_entries := original_entries
    original_tests := original_tests
    unique_entries := unique_entries
    unique_tests := unique_tests
    duplicate_entries := (original_entries : Int) - (unique_entries : Int)
    duplicate_tests := (original_tests : Int) - (unique_tests : Int) }

/-! The normalizer (`05_normalize.py`). -/

/-- A character of the regex class `[a-zA-Z0-9_]`. -/
def isWordChar (c : Char) : Bool :=
  (Char.ofNat 97 ≤ c && c ≤ Char.ofNat 122)
    || (Char.ofNat 65 ≤ c && c ≤ Char.ofNat 90)
    || (Char.ofNat 48 ≤ c && c ≤ Char.ofNat 57)
    || c = Char.ofNat 95

/-- A character of the regex class `\s` (ASCII view: the corpus bodies are
source text, where CPython's `\s` matches exactly these). -/
def isSpaceChar (c : Char) : Bool :=
  c = Char.ofNat 32 || c = Char.ofNat 9 || c = Char.ofNat 10
    || c = Char.ofNat 13 || c = Char.ofNat 11 || c = Char.ofNat 12

/-- Try to match the pattern `import\s+([a-zA-Z0-9_]+)\s+as\s+([a-zA-Z0-9_]+)`
at the head of `cs`, returning `(group1, group2, rest)`.  All quantified
tokens are greedy and each is followed by a token starting with a character
of a disjoint class, so maximal munch without backtracking coincides with
the regex engine's behaviour on this pattern. -/
def matchImportAt (cs : List Char) : Option (List Char × List Char × List Char) :=
  if ("import").data.isPrefixOf cs then
    let cs1 := cs.drop 6
    let sp1 := cs1.span isSpaceChar
    if sp1.1.isEmpty then none else
    let w1 := sp1.2.span isWordChar
    if w1.1.isEmpty then none else
    let sp2 := w1.2.span isSpaceChar
    if sp2.1.isEmpty then none else
    if ("as").data.isPrefixOf sp2.2 then
      let cs2 := sp2.2.drop 2
      let sp3 := cs2.span isSpaceChar
      if sp3.1.isEmpty then none else
      let w2 := sp3.2.span isWordChar
      if w2.1.isEmpty then none else
      some (w1.1, w2.1, w2.2)
    else none
  else none

/-- Step 2 of `normalize_code` (line 31): `re.sub` with the pattern above and
replacement `import \1 as \2`, scanning left to right and resuming after
each match.  Fuel is the subject length (every match consumes at least one
character). -/
def subImportCore : Nat → List Char → List Char
  | 0, cs => cs
  | _+1, [] => []
  | fuel+1, c :: cs =>
    match matchImportAt (c :: cs) with
    | some (w1, w2, rest) =>
      ("import ").data ++ w1 ++ (" as ").data ++ w2 ++ subImportCore fuel rest
    | none => c :: subImportCore fuel cs

/-- Step 2 of `normalize_code` on strings. -/
def subImport (s : String) : String :=
  String.mk (subImportCore s.data.length s.data)

/-- Three single quotes. -/
def tripleQuote : List Char := [quoteChar, quoteChar, quoteChar]

/-- Find the earliest closing `'''` after at least one content character
(the lazy `(.+?)` of the pattern), returning `(content, rest)`. -/
def findCloseCore : List Char → Option (List Char × List Char)
  | [] => none
  | c :: cs =>
    if tripleQuote.isPrefixOf cs then some ([c], cs.drop 3)
    else
      match findCloseCore cs with
      | some p => some (c :: p.1, p.2)
      | none => none

/-- Step 3 of `normalize_code` (line 34): `re.sub` of `'''(.+?)'''` (with
`re.DOTALL`) by `"""\1"""`, scanning left to right and resuming after each
match; a position where `'''` has no later closing `'''` is not a match and
scanning advances one character. -/
def subDocCore : Nat → List Char → List Char
  | 0, cs => cs
  | _+1, [] => []
  | fuel+1, c :: cs =>
    if tripleQuote.isPrefixOf (c :: cs) then
      match findCloseCore ((c :: cs).drop 3) with
      | some p =>
        [Char.ofNat 34, Char.ofNat 34, Char.ofNat 34] ++ p.1
          ++ [Char.ofNat 34, Char.ofNat 34, Char.ofNat 34] ++ subDocCore fuel p.2
      | none => c :: subDocCore fuel cs
    else c :: subDocCore fuel cs

/-- Step 3 of `normalize_code` on strings. -/
def subDocstring (s : String) : String :=
  String.mk (subDocCore s.data.length s.data)

/-- `normalize_code` (lines 23-39): format with the external `black`
collaborator, then apply the two textual substitutions; the surrounding
`try`/`except` returns the input unchanged if any step raises, and in this
embedding only the collaborator can raise (the fixed, valid regexes of
steps 2-3 are total). -/
def normalize_code (black : String → Except String String) (code_str : String) : String :=
  match black code_str with
  | .ok formatted => subDocstring (subImport formatted)
  | .error _ => code_str

/-- The per-test rewrite of `normalize_dataset`: `test['body'] =
normalize_code(original)`. -/
def normalizeTest (black : String → Except String String) (t : TestRecord) : TestRecord :=
  ⟨t.name, normalize_code black t.body, t.file, t.cls⟩

/-- The per-entry rewrite of `normalize_dataset`. -/
def normalizeEntry (black : String → Except String String) (e : FileEntry) : FileEntry :=
  ⟨e.repo, e.file, e.tests.map (normalizeTest black)⟩

/-- `normalize_dataset` (lines 41-72) on an in-memory dataset: returns the
rewritten dataset with the counters `(normalized_count, skipped_count)`.
The per-test `except` branch that increments `skipped_count` is
unreachable: `normalize_code` catches every exception internally and always
returns (it is total here), so the loop body never raises and
`skipped_count` is never incremented. -/
def normalize_dataset (black : String → Except String String) (data : List FileEntry) :
    List FileEntry × Nat × Nat :=
  data.foldl (fun acc entry =>
    let r := entry.tests.foldl (fun (p : List TestRecord × Nat) t =>
      let normalized := normalize_code black t.body
      (p.1 ++ [⟨t.name, normalized, t.file, t.cls⟩],
       p.2 + (if t.body = normalized then 0 else 1))) ([], acc.2.1)
    (acc.1 ++ [⟨entry.repo, entry.file, r.1⟩], r.2, acc.2.2)) ([], 0, 0)

/-! Concrete scenario data used by the claim-level theorems: each tree is
the `ast.parse` result of its content string, transcribed with CPython's
location attributes (1-based lines, 0-based columns, `lineno` of a
`FunctionDef` at its `def` keyword). -/

/-- The spec's scenario file: a class with base `unittest.TestCase` (an
attribute expression, not a bare name) containing `test_x` and `setup`. -/
def c1content : String :=
  "class FooTests(unittest.TestCase):\n    def test_x(self): pass\n    def setup(self): pass\n"

/-- The parse tree of `c1content`. -/
def c1tree : PyModule :=
  [PyNode.classDef ("FooTests")
    [PyExpr.attribute (PyExpr.name ("unittest")) ("TestCase")]
    ⟨1, 0, 3, 25⟩
    (PyBody.ofList
      [PyNode.functionDef ("test_x") [] ⟨2, 4, 2, 26⟩ (PyBody.ofList [PyNode.other PyBody.nil]),
       PyNode.functionDef ("setup") [] ⟨3, 4, 3, 25⟩ (PyBody.ofList [PyNode.other PyBody.nil])])]

/-- The parser collaborator for the `c1content` scenario. -/
def parseC1 : String → Except String PyModule := fun _ => Except.ok c1tree

/-- A parser that always raises a `SyntaxError` (for contents that CPython
cannot parse). -/
def parseAlwaysFail : String → Except String PyModule :=
  fun _ => Except.error ("invalid syntax")

/-- A decorated test function: the decorator line precedes the `def` line,
and the `FunctionDef` location starts at the `def` keyword. -/
def c4content : String := "@foo\ndef test_a():\n    pass\n"

/-- The parse tree of `c4content`. -/
def c4tree : PyModule :=
  [PyNode.functionDef ("test_a") [PyExpr.name ("foo")] ⟨2, 0, 3, 8⟩
    (PyBody.ofList [PyNode.other PyBody.nil])]

/-- The parser collaborator for the `c4content` scenario. -/
def parseC4 : String → Except String PyModule := fun _ => Except.ok c4tree

/-- A unittest-style class whose base is the bare name `TestCase`. -/
def w10content : String :=
  "from unittest import TestCase\nclass FooTests(TestCase):\n    def test_x(self):\n        pass\n"

/-- The parse tree of `w10content`. -/
def w10tree : PyModule :=
  [PyNode.other PyBody.nil,
   PyNode.classDef ("FooTests") [PyExpr.name ("TestCase")] ⟨2, 0, 4, 12⟩
     (PyBody.ofList
       [PyNode.functionDef ("test_x") [] ⟨3, 4, 4, 12⟩ (PyBody.ofList [PyNode.other PyBody.nil])])]

/-- The parser collaborator for the `w10content` scenario. -/
def parseW10 : String → Except String PyModule := fun _ => Except.ok w10tree

/-- A record appearing twice, fully identical, in one entry (as the
extractor produces for two textually identical nested defs in one file). -/
def dupRec : TestRecord := ⟨("test_a"), ("def test_a(): pass"), ("tests/a.py"), none⟩

/-- A dataset where one entry holds the same record twice. -/
def dupData : List FileEntry := [⟨("r"), ("tests/a.py"), [dupRec, dupRec]⟩]

/-- Two distinct records sharing one body, in entries with distinct keys. -/
def recA : TestRecord := ⟨("test_a"), ("assert True"), ("tests/a.py"), none⟩

/-- The later record with the same body as `recA` but a different name. -/
def recB : TestRecord := ⟨("test_b"), ("assert True"), ("tests/b.py"), none⟩

/-- A dataset with two distinct records of identical body. -/
def pairData : List FileEntry :=
  [⟨("r"), ("tests/a.py"), [recA]⟩, ⟨("r"), ("tests/b.py"), [recB]⟩]

/-- A formatter collaborator that always fails. -/
def blackFail : String → Except String String := fun _ => Except.error ("fmt")

/-- A one-test dataset for the normalizer scenarios. -/
def d5 : List FileEntry := [⟨("r"), ("f.py"), [⟨("t"), ("b"), ("f.py"), none⟩]⟩]

/-- The identity formatter collaborator (a fixed-point formatter). -/
def blackId : String → Except String String := fun s => Except.ok s

/-- A deterministic formatter collaborator that appends a newline — it
satisfies the spec's collaborator contract (deterministic reformat or
fail) but is not idempotent. -/
def blackNl : String → Except String String := fun s => Except.ok (s ++ "\n")

/-- A one-file walked listing of a repository clone, as `os.walk` yields it
(root components, file name). -/
def c6walked : List (List String × String) :=
  [([(".."), ("clones"), ("myrepo"), ("tests")], ("a.py"))]

/-! Helper lemmas about the breadth-first walk. -/

theorem sizeNode_pos (n : PyNode) : 1 ≤ sizeNode n := by
  cases n <;> simp [sizeNode]

theorem sizeNodes_eq_zero {q : List PyNode} (h : sizeNodes q = 0) : q = [] := by
  cases q with
  | nil => rfl
  | cons n ns =>
    exfalso
    have := sizeNode_pos n
    simp [sizeNodes] at h
    omega

theorem sizeNodes_append (a b : List PyNode) :
    sizeNodes (a ++ b) = sizeNodes a + sizeNodes b := by
  induction a with
  | nil => simp [sizeNodes]
  | cons n ns ih => simp [sizeNodes, ih]; omega

theorem sizeNodes_toList : (b : PyBody) → sizeNodes b.toList = sizeBody b
  | .nil => rfl
  | .cons h t => by simp [PyBody.toList, sizeNodes, sizeBody, sizeNodes_toList t]

theorem sizeNodes_cons (n : PyNode) (q : List PyNode) :
    sizeNodes (n :: q) = 1 + sizeNodes (childrenOf n) + sizeNodes q := by
  cases n <;> simp [sizeNodes, sizeNode, childrenOf, sizeNodes_toList]

theorem mem_walkBFSFuel_of_mem :
    ∀ (fuel : Nat) (q : List PyNode), sizeNodes q ≤ fuel → ∀ n ∈ q, n ∈ walkBFSFuel fuel q := by
  intro fuel
  induction fuel with
  | zero =>
    intro q hq n hn
    rw [sizeNodes_eq_zero (Nat.le_zero.mp hq)] at hn
    cases hn
  | succ f ih =>
    intro q hq n hn
    cases q with
    | nil => cases hn
    | cons x q' =>
      have hsz : sizeNodes (q' ++ childrenOf x) ≤ f := by
        rw [sizeNodes_append]
        have := sizeNodes_cons x q'
        omega
      simp only [walkBFSFuel]
      rcases List.mem_cons.mp hn with h | h
      · exact List.mem_cons.mpr (Or.inl h)
      · exact List.mem_cons.mpr (Or.inr (ih _ hsz n (List.mem_append_left _ h)))

theorem children_mem_walkBFSFuel :
    ∀ (fuel : Nat) (q : List PyNode), sizeNodes q ≤ fuel →
      ∀ n ∈ walkBFSFuel fuel q, ∀ m ∈ childrenOf n, m ∈ walkBFSFuel fuel q := by
  intro fuel
  induction fuel with
  | zero =>
    intro q hq n hn
    simp [walkBFSFuel] at hn
  | succ f ih =>
    intro q hq n hn m hm
    cases q with
    | nil => simp [walkBFSFuel] at hn
    | cons x q' =>
      have hsz : sizeNodes (q' ++ childrenOf x) ≤ f := by
        rw [sizeNodes_append]
        have := sizeNodes_cons x q'
        omega
      simp only [walkBFSFuel] at hn ⊢
      rcases List.mem_cons.mp hn with h | h
      · subst h
        exact List.mem_cons.mpr
          (Or.inr (mem_walkBFSFuel_of_mem f _ hsz m (List.mem_append_right _ hm)))
      · exact List.mem_cons.mpr (Or.inr (ih _ hsz n h m hm))

theorem children_mem_walkBFS {roots : List PyNode} {n : PyNode}
    (hn : n ∈ walkBFS roots) {m : PyNode} (hm : m ∈ childrenOf n) :
    m ∈ walkBFS roots :=
  children_mem_walkBFSFuel _ _ le_rfl n hn m hm

theorem extract_ok {parse : String → Except String PyModule}
    {fileName content : String} {tree : PyModule}
    (hpre : hasTestTerm content = true) (hparse : parse content = Except.ok tree) :
    extract_test_functions parse fileName content =
      ((walkBFS tree).flatMap (recordsForNode content fileName), none) := by
  simp [extract_test_functions, hpre, hparse]

theorem pyReplaceFuel_self (p : List Char) :
    ∀ (fuel : Nat) (cs : List Char), pyReplaceFuel p p fuel cs = cs := by
  intro fuel
  induction fuel with
  | zero => intro cs; rfl
  | succ f ih =>
    intro cs
    cases cs with
    | nil => rfl
    | cons c cs =>
      by_cases h : p.isPrefixOf (c :: cs)
      · simp only [pyReplaceFuel, h, if_true]
        obtain ⟨t, ht⟩ := List.isPrefixOf_iff_prefix.mp h
        rw [ih]
        calc p ++ (c :: cs).drop p.length
            = p ++ (p ++ t).drop p.length := by rw [ht]
          _ = p ++ t := by rw [List.drop_left]
          _ = c :: cs := ht
      · simp [pyReplaceFuel, h, ih]

theorem pyReplace_self (s pat : String) : pyReplace s pat pat = s := by
  unfold pyReplace
  rw [pyReplaceFuel_self]

/-- C1 (counterexample): on the spec's scenario file `class
FooTests(unittest.TestCase):` with methods `test_x` and `setup`, the
extractor emits exactly one record but none named `FooTests.test_x` and
none tagged with a class: the base `unittest.TestCase` is an attribute
expression without an `id` attribute, so the TestCase-class check never
fires. -/
theorem c1_cex :
    (extract_test_functions parseC1 ("tests/foo.py") c1content).1.length = 1 ∧
    (extract_test_functions parseC1 ("tests/foo.py") c1content).1.all
      (fun r => decide (r.name ≠ ("FooTests.test_x")) && decide (r.cls = none)) = true := by
  decide

/-- C1 (amended): the scenario yields exactly one TestRecord, named
`test_x` with no class tag — emitted by the function-name check, since the
`unittest.TestCase` base is not a bare identifier — and no record for
`setup`. -/
theorem c1_amended :
    extract_test_functions parseC1 ("tests/foo.py") c1content =
      ([⟨("test_x"), ("def test_x(self): pass"), ("tests/foo.py"), none⟩], none) := by
  decide

/-- C4 (counterexample): for a decorated test function the recorded body is
the slice starting at the `def` keyword; the decorator line present in the
source is not part of the body, refuting "including its decorators". -/
theorem c4_cex :
    extract_test_functions parseC4 ("f.py") c4content =
      ([⟨("test_a"), ("def test_a():\n    pass"), ("f.py"), none⟩], none) ∧
    pyIn ("@foo") ("def test_a():\n    pass") = false ∧
    pyIn ("@foo") c4content = true := by
  decide

/-- C4 (amended): every qualifying function yields a record whose body is
the verbatim slice of the source at the definition's own location — which
starts at the `def` keyword and excludes decorators — and the extractor's
error output stays `none` whether or not the slice is recoverable (an
unrecoverable slice only skips the record). -/
theorem c4_amended (parse : String → Except String PyModule)
    (fileName content : String) (tree : PyModule)
    (nm : String) (decs : List PyExpr) (loc : PyLoc) (b : PyBody)
    (hpre : hasTestTerm content = true)
    (hparse : parse content = Except.ok tree)
    (hmem : PyNode.functionDef nm decs loc b ∈ walkBFS tree)
    (hq : isTestFunctionDef nm decs = true) :
    (extract_test_functions parse fileName content).2 = none ∧
    (∀ s : String, getSourceSegment content loc = some s → s.data.isEmpty = false →
      (⟨nm, s, fileName, none⟩ : TestRecord) ∈ (extract_test_functions parse fileName content).1) := by
  rw [extract_ok hpre hparse]
  refine ⟨rfl, ?_⟩
  intro s hseg hs
  apply List.mem_flatMap.mpr
  refine ⟨_, hmem, ?_⟩
  simp [recordsForNode, hq, recordForFunction, hseg, hs]

/-- C4 (witness): the amended statement applied to the decorated scenario
file: the emitted body is the slice from the `def` keyword. -/
theorem c4_witness :
    (⟨("test_a"), ("def test_a():\n    pass"), ("f.py"), none⟩ : TestRecord) ∈
      (extract_test_functions parseC4 ("f.py") c4content).1 := by
  have h : (walkBFS c4tree).get? 0 =
      some (PyNode.functionDef ("test_a") [PyExpr.name ("foo")] ⟨2, 0, 3, 8⟩
        (PyBody.ofList [PyNode.other PyBody.nil])) := rfl
  exact (c4_amended parseC4 ("f.py") c4content c4tree _ _ _ _ (by decide) rfl
    (List.get?_mem h) (by decide)).2 _ (by decide) (by decide)

/-- C3 (counterexample): an unparsable content with no test-related term
is rejected by the cheap pre-filter before any parse, so no SyntaxError
failure is recorded although the content fails to parse — the claim's
"for every file content" if-and-only-if does not hold. -/
theorem c3_cex :
    parseAlwaysFail ("(") = Except.error ("invalid syntax") ∧
    hasTestTerm ("(") = false ∧
    extract_test_functions parseAlwaysFail ("f.py") ("(") = ([], none) :=
  ⟨rfl, by decide, by decide⟩

/-- C3 (amended): the retry-fix replaces substrings with themselves, so the
repaired text equals the original; hence for every content passing the
test-term pre-filter the extractor records a SyntaxError failure (with
zero tests) iff the original content fails to parse — the retry never
succeeds where the first parse failed. -/
theorem c3_amended (parse : String → Except String PyModule) (fileName content : String)
    (hpre : hasTestTerm content = true) :
    (pyReplace (pyReplace content fstrPat fstrPat) closePat closePat = content) ∧
    ((∃ m, (extract_test_functions parse fileName content).2 = some m) ↔
      (∃ e, parse content = Except.error e)) ∧
    (∀ e, parse content = Except.error e →
      extract_test_functions parse fileName content = ([], some (("SyntaxError: ") ++ e))) := by
  have hid : pyReplace (pyReplace content fstrPat fstrPat) closePat closePat = content := by
    rw [pyReplace_self, pyReplace_self]
  have herr : ∀ e, parse content = Except.error e →
      extract_test_functions parse fileName content = ([], some (("SyntaxError: ") ++ e)) := by
    intro e he
    simp [extract_test_functions, hpre, hid, he]
  refine ⟨hid, ⟨?_, ?_⟩, herr⟩
  · rintro ⟨m, hm⟩
    cases hp : parse content with
    | ok t =>
      rw [extract_ok hpre hp] at hm
      cases hm
    | error e => exact ⟨e, rfl⟩
  · rintro ⟨e, he⟩
    rw [herr e he]
    exact ⟨_, rfl⟩

/-- C3 (witness): a failing parse on a content passing the pre-filter is
recorded as a SyntaxError with the retry failing identically. -/
theorem c3_witness :
    hasTestTerm ("test") = true ∧
    extract_test_functions parseAlwaysFail ("f.py") ("test") =
      ([], some (("SyntaxError: ") ++ ("invalid syntax"))) :=
  ⟨by decide, (c3_amended parseAlwaysFail ("f.py") ("test") (by decide)).2.2 ("invalid syntax") rfl⟩

/-- C10: for a class whose base is a bare identifier containing `TestCase`,
each directly-contained method named `test_*` with a recoverable source
slice is emitted both as an unqualified record (via the function-definition
check, since `ast.walk` also visits the method node) and as a distinct
class-qualified record (via the TestCase-class check), with identical
bodies. -/
theorem c10_double_emission (parse : String → Except String PyModule)
    (fileName content : String) (tree : PyModule)
    (cname : String) (bases : List PyExpr) (cloc : PyLoc) (cbody : PyBody)
    (mname : String) (mdecs : List PyExpr) (mloc : PyLoc) (mbody : PyBody)
    (s : String)
    (hpre : hasTestTerm content = true)
    (hparse : parse content = Except.ok tree)
    (hcls : PyNode.classDef cname bases cloc cbody ∈ walkBFS tree)
    (hbase : isTestCaseClass bases = true)
    (hm : PyNode.functionDef mname mdecs mloc mbody ∈ cbody.toList)
    (hname : pyStartsWith mname ("test_") = true)
    (hseg : getSourceSegment content mloc = some s)
    (hs : s.data.isEmpty = false) :
    (⟨mname, s, fileName, none⟩ : TestRecord) ∈
      (extract_test_functions parse fileName content).1 ∧
    (⟨cname ++ (".") ++ mname, s, fileName, some cname⟩ : TestRecord) ∈
      (extract_test_functions parse fileName content).1 ∧
    cname ++ (".") ++ mname ≠ mname := by
  rw [extract_ok hpre hparse]
  refine ⟨?_, ?_, ?_⟩
  · -- the unqualified record, contributed by the walked method node
    apply List.mem_flatMap.mpr
    refine ⟨PyNode.functionDef mname mdecs mloc mbody, ?_, ?_⟩
    · exact children_mem_walkBFS hcls (by simpa [childrenOf] using hm)
    · simp [recordsForNode, isTestFunctionDef, hname, recordForFunction, hseg, hs]
  · -- the class-qualified record, contributed by the walked class node
    apply List.mem_flatMap.mpr
    refine ⟨PyNode.classDef cname bases cloc cbody, hcls, ?_⟩
    simp only [recordsForNode, hbase, if_true]
    apply List.mem_flatMap.mpr
    refine ⟨PyNode.functionDef mname mdecs mloc mbody, hm, ?_⟩
    simp [hname, hseg, hs]
  · intro h
    have h2 := congrArg (fun x : String => x.data.length) h
    simp [String.data_append] at h2
    omega

/-- C10 (witness): the double emission on a concrete `FooTests(TestCase)`
file. -/
theorem c10_witness :
    (⟨("test_x"), ("def test_x(self):\n        pass"), ("t.py"), none⟩ : TestRecord) ∈
      (extract_test_functions parseW10 ("t.py") w10content).1 ∧
    (⟨("FooTests") ++ (".") ++ ("test_x"), ("def test_x(self):\n        pass"), ("t.py"),
        some ("FooTests")⟩ : TestRecord) ∈
      (extract_test_functions parseW10 ("t.py") w10content).1 ∧
    ("FooTests") ++ (".") ++ ("test_x") ≠ ("test_x") := by
  have h : (walkBFS w10tree).get? 1 =
      some (PyNode.classDef ("FooTests") [PyExpr.name ("TestCase")] ⟨2, 0, 4, 12⟩
        (PyBody.ofList
          [PyNode.functionDef ("test_x") [] ⟨3, 4, 4, 12⟩
            (PyBody.ofList [PyNode.other PyBody.nil])])) := rfl
  exact c10_double_emission parseW10 ("t.py") w10content w10tree ("FooTests")
    [PyExpr.name ("TestCase")] ⟨2, 0, 4, 12⟩
    (PyBody.ofList
      [PyNode.functionDef ("test_x") [] ⟨3, 4, 4, 12⟩ (PyBody.ofList [PyNode.other PyBody.nil])])
    ("test_x") [] ⟨3, 4, 4, 12⟩ (PyBody.ofList [PyNode.other PyBody.nil])
    ("def test_x(self):\n        pass")
    (by decide) rfl (List.get?_mem h) (by decide) (List.mem_singleton.mpr rfl)
    (by decide) (by decide) (by decide)

/-! Helper lemmas about the deduplicator. -/

theorem foldl_tests_flatten (data : List FileEntry) (acc : List (String × TestRecord)) :
    data.foldl (fun a e => e.tests.foldl gStep a) acc = (allTests data).foldl gStep acc := by
  induction data generalizing acc with
  | nil => simp [allTests]
  | cons e tail ih =>
    simp only [allTests, List.flatMap_cons, List.foldl_cons, List.foldl_append]
    exact ih _

theorem lookupUT_foldl (ts : List TestRecord) (acc : List (String × TestRecord)) (b : String) :
    lookupUT (ts.foldl gStep acc) b =
      (match lookupUT acc b with
       | some v => some v
       | none => ts.find? (fun t => t.body == b)) := by
  induction ts generalizing acc with
  | nil =>
    cases hl : lookupUT acc b <;> simp [hl]
  | cons t ts ih =>
    simp only [List.foldl_cons]
    rw [ih]
    by_cases hp : (acc.find? (fun p => p.1 == t.body)).isSome = true
    · have hstep : gStep acc t = acc := by simp [gStep, hp]
      rw [hstep]
      cases hl : lookupUT acc b with
      | some v => simp
      | none =>
        simp only [List.find?_cons]
        by_cases hb : (t.body == b) = true
        · exfalso
          have hbe : t.body = b := by
            simpa using hb
          rw [← hbe] at hl
          unfold lookupUT at hl
          rcases hq : acc.find? (fun p => p.1 == t.body) with _ | pr
          · rw [hq] at hp; simp at hp
          · rw [hq] at hl; simp at hl
        · simp [hb]
    · have hstep : gStep acc t = acc ++ [(t.body, t)] := by simp [gStep, hp]
      rw [hstep]
      unfold lookupUT
      rw [List.find?_append]
      cases hl : acc.find? (fun p => p.1 == b) with
      | some pr =>
        have : lookupUT acc b = some pr.2 := by simp [lookupUT, hl]
        simp [this]
      | none =>
        have hlu : lookupUT acc b = none := by simp [lookupUT, hl]
        simp only [hlu, List.find?_cons]
        by_cases hb : (t.body == b) = true
        · simp [List.find?, hb]
        · simp [List.find?, hb]

theorem lookupUT_buildUnique (data : List FileEntry) (b : String) :
    lookupUT (buildUniqueTests data) b = (allTests data).find? (fun t => t.body == b) := by
  unfold buildUniqueTests
  rw [foldl_tests_flatten, lookupUT_foldl]
  simp [lookupUT]

theorem gStep_foldl_length_le (ts : List TestRecord) (acc : List (String × TestRecord)) :
    (ts.foldl gStep acc).length ≤ acc.length + ts.length := by
  induction ts generalizing acc with
  | nil => simp
  | cons t ts ih =>
    simp only [List.foldl_cons]
    have h := ih (gStep acc t)
    have hg : (gStep acc t).length ≤ acc.length + 1 := by
      unfold gStep
      split
      · omega
      · simp
    simp only [List.length_cons]
    omega

theorem mem_keys_gStep_foldl (ts : List TestRecord) (acc : List (String × TestRecord)) (b : String) :
    (b ∈ (ts.foldl gStep acc).map Prod.fst ↔
      b ∈ acc.map Prod.fst ∨ b ∈ ts.map (fun t => t.body)) := by
  induction ts generalizing acc with
  | nil => simp
  | cons t ts ih =>
    simp only [List.foldl_cons, List.map_cons, List.mem_cons]
    rw [ih]
    by_cases hp : (acc.find? (fun p => p.1 == t.body)).isSome = true
    · have hstep : gStep acc t = acc := by simp [gStep, hp]
      rw [hstep]
      have hmem : t.body ∈ acc.map Prod.fst := by
        rcases List.find?_isSome.mp hp with ⟨p, hpm, hpe⟩
        have : p.1 = t.body := by simpa using hpe
        exact this ▸ List.mem_map_of_mem Prod.fst hpm
      constructor
      · tauto
      · rintro (h | h | h)
        · exact Or.inl h
        · exact Or.inl (h ▸ hmem)
        · exact Or.inr h
    · have hstep : gStep acc t = acc ++ [(t.body, t)] := by simp [gStep, hp]
      rw [hstep]
      simp only [List.map_append, List.mem_append, List.map_cons, List.map_nil,
        List.mem_cons, List.not_mem_nil, or_false]
      tauto

theorem nodup_keys_gStep_foldl (ts : List TestRecord) (acc : List (String × TestRecord))
    (h : (acc.map Prod.fst).Nodup) : ((ts.foldl gStep acc).map Prod.fst).Nodup := by
  induction ts generalizing acc with
  | nil => exact h
  | cons t ts ih =>
    simp only [List.foldl_cons]
    by_cases hp : (acc.find? (fun p => p.1 == t.body)).isSome = true
    · have hstep : gStep acc t = acc := by simp [gStep, hp]
      rw [hstep]; exact ih acc h
    · have hstep : gStep acc t = acc ++ [(t.body, t)] := by simp [gStep, hp]
      rw [hstep]
      apply ih
      rw [List.map_append, List.nodup_append]
      refine ⟨h, by simp, ?_⟩
      intro x hx
      simp only [List.map_cons, List.map_nil, List.mem_cons, List.not_mem_nil, or_false]
      intro hxe
      subst hxe
      apply hp
      rw [List.find?_isSome]
      rcases List.mem_map.mp hx with ⟨p, hpm, hpe⟩
      exact ⟨p, hpm, by simp [hpe]⟩

theorem buildUnique_length_le (data : List FileEntry) :
    (buildUniqueTests data).length ≤ (allTests data).length := by
  have := gStep_foldl_length_le (allTests data) []
  unfold buildUniqueTests
  rw [foldl_tests_flatten]
  simpa using this

theorem buildUnique_length_eq (data : List FileEntry) :
    (buildUniqueTests data).length = ((allTests data).map (fun t => t.body)).dedup.length := by
  have hnd : ((buildUniqueTests data).map Prod.fst).Nodup := by
    unfold buildUniqueTests
    rw [foldl_tests_flatten]
    exact nodup_keys_gStep_foldl _ [] (by simp)
  have hmem : ∀ b, b ∈ (buildUniqueTests data).map Prod.fst ↔
      b ∈ (allTests data).map (fun t => t.body) := by
    intro b
    unfold buildUniqueTests
    rw [foldl_tests_flatten]
    simpa using mem_keys_gStep_foldl (allTests data) [] b
  have hfin : ((buildUniqueTests data).map Prod.fst).toFinset =
      ((allTests data).map (fun t => t.body)).toFinset := by
    ext b
    simp only [List.mem_toFinset]
    exact hmem b
  calc (buildUniqueTests data).length
      = ((buildUniqueTests data).map Prod.fst).length := by simp
    _ = ((buildUniqueTests data).map Prod.fst).toFinset.card :=
        (List.toFinset_card_of_nodup hnd).symm
    _ = ((allTests data).map (fun t => t.body)).toFinset.card := by rw [hfin]
    _ = ((allTests data).map (fun t => t.body)).dedup.length := List.card_toFinset _

theorem dedup_foldl_length_le (data : List FileEntry) (ut : List (String × TestRecord))
    (accL : List FileEntry) (seen : List String) :
    ((data.foldl (dedupStep ut) (accL, seen)).1).length ≤ accL.length + data.length := by
  induction data generalizing accL seen with
  | nil => simp
  | cons e tail ih =>
    simp only [List.foldl_cons, List.length_cons]
    have hstep : (dedupStep ut (accL, seen) e).1.length ≤ accL.length + 1 := by
      by_cases h1 : (e.tests.filter (keepTest ut)).isEmpty = true
      · simp [dedupStep, h1]
      · by_cases h2 : entryKey e ∈ seen
        · simp [dedupStep, h1, h2]
        · simp [dedupStep, h1, h2]
    have h2 := ih (dedupStep ut (accL, seen) e).1 (dedupStep ut (accL, seen) e).2
    rw [Prod.mk.eta] at h2
    omega

theorem dedup_foldl_eq (data : List FileEntry) (ut : List (String × TestRecord))
    (accL : List FileEntry) (seen : List String)
    (hnd : (data.map entryKey).Nodup)
    (hseen : ∀ e ∈ data, entryKey e ∉ seen) :
    (data.foldl (dedupStep ut) (accL, seen)).1 =
      accL ++ data.filterMap (fun e =>
        let ft := e.tests.filter (keepTest ut)
        if ft.isEmpty then none else some ⟨e.repo, e.file, ft⟩) := by
  induction data generalizing accL seen with
  | nil => simp
  | cons e tail ih =>
    simp only [List.map_cons, List.nodup_cons] at hnd
    simp only [List.foldl_cons, List.filterMap_cons]
    by_cases h1 : (e.tests.filter (keepTest ut)).isEmpty = true
    · have hstep : dedupStep ut (accL, seen) e = (accL, seen) := by
        simp [dedupStep, h1]
      rw [hstep]
      simp only [h1, if_true]
      exact ih accL seen hnd.2 (fun x hx => hseen x (List.mem_cons_of_mem e hx))
    · have hnotseen : entryKey e ∉ seen := hseen e (List.mem_cons_self e tail)
      have hstep : dedupStep ut (accL, seen) e =
          (accL ++ [⟨e.repo, e.file, e.tests.filter (keepTest ut)⟩],
           seen ++ [entryKey e]) := by
        simp [dedupStep, h1, hnotseen]
      rw [hstep]
      simp only [h1, if_false]
      rw [ih _ _ hnd.2 ?_]
      · simp
      · intro x hx
        simp only [List.mem_append, List.mem_singleton]
        rintro (hs | hk)
        · exact hseen x (List.mem_cons_of_mem e hx) hs
        · exact hnd.1 (hk ▸ List.mem_map_of_mem entryKey hx)

theorem filterMap_flatMap_filter (data : List FileEntry) (ut : List (String × TestRecord)) :
    ((data.filterMap (fun e =>
        let ft := e.tests.filter (keepTest ut)
        if ft.isEmpty then none else some (⟨e.repo, e.file, ft⟩ : FileEntry))).flatMap
          (fun e => e.tests))
      = (allTests data).filter (keepTest ut) := by
  induction data with
  | nil => simp [allTests]
  | cons e tail ih =>
    simp only [allTests, List.flatMap_cons, List.filter_append, List.filterMap_cons]
    by_cases hft : (e.tests.filter (keepTest ut)).isEmpty = true
    · rw [List.isEmpty_iff] at hft
      simp only [hft, List.isEmpty_nil, if_true, hft]
      simpa [allTests, hft] using ih
    · simp only [hft, if_false, List.flatMap_cons]
      simpa [allTests] using congrArg (fun l => e.tests.filter (keepTest ut) ++ l) ih

theorem survivors_eq (data : List FileEntry)
    (h2 : (data.map entryKey).Nodup) :
    (deduplicated_data data).flatMap (fun e => e.tests) =
      (allTests data).filter (keepTest (buildUniqueTests data)) := by
  unfold deduplicated_data
  rw [dedup_foldl_eq data _ [] [] h2 (by simp)]
  simp only [List.nil_append]
  exact filterMap_flatMap_filter data _

theorem filter_eq_singleton {α : Type} (l : List α) (q : α → Bool) (a : α)
    (hnd : l.Nodup) (ha : a ∈ l) (hqa : q a = true)
    (huniq : ∀ x ∈ l, q x = true → x = a) :
    l.filter q = [a] := by
  induction l with
  | nil => cases ha
  | cons x xs ih =>
    simp only [List.nodup_cons] at hnd
    rcases List.mem_cons.mp ha with rfl | hx
    · simp only [List.filter_cons, hqa, if_true]
      have : xs.filter q = [] := by
        rw [List.filter_eq_nil_iff]
        intro y hy hqy
        exact hnd.1 ((huniq y (List.mem_cons_of_mem _ hy) hqy) ▸ hy)
      rw [this]
    · have hqx : q x = false := by
        by_contra hqx
        have hxa : x = a := huniq x (List.mem_cons_self x xs) (by simpa using hqx)
        exact hnd.1 (hxa ▸ hx)
      simp only [List.filter_cons, hqx, if_false]
      exact ih hnd.2 hx (fun y hy hqy => huniq y (List.mem_cons_of_mem _ hy) hqy)

/-- C9: the deduplicator's statistics satisfy `unique_entries ≤
original_entries`, `unique_tests ≤ original_tests`, `duplicate_tests =
original_tests − unique_tests` exactly, and `unique_tests` equals the
number of distinct body texts in the input. -/
theorem c9_stats (data : List FileEntry) :
    (dedup_stats data).unique_entries ≤ (dedup_stats data).original_entries ∧
    (dedup_stats data).unique_tests ≤ (dedup_stats data).original_tests ∧
    (dedup_stats data).duplicate_tests =
      ((dedup_stats data).original_tests : Int) - ((dedup_stats data).unique_tests : Int) ∧
    (dedup_stats data).unique_tests = ((allTests data).map (fun t => t.body)).dedup.length := by
  refine ⟨?_, ?_, rfl, ?_⟩
  · show (deduplicated_data data).length ≤ data.length
    unfold deduplicated_data
    simpa using dedup_foldl_length_le data (buildUniqueTests data) [] []
  · show (buildUniqueTests data).length ≤ (data.map (fun e => e.tests.length)).sum
    have h1 := buildUnique_length_le data
    have h2 : (allTests data).length = (data.map (fun e => e.tests.length)).sum := by
      unfold allTests
      rw [List.length_flatMap]
      rfl
    omega
  · exact buildUnique_length_eq data

/-- C2 (counterexample): when an entry holds the same record twice (two
wholly identical dicts, as the extractor produces for textually identical
nested defs in one file), both occurrences survive deduplication: the
filter keeps every record equal to the first-seen one, so "exactly one
survives" fails for this pair. -/
theorem c2_cex :
    ((deduplicated_data dupData).flatMap (fun e => e.tests)).filter
      (fun x => x.body == ("def test_a(): pass")) = [dupRec, dupRec] := by
  decide

/-- C2 (amended): among the records with a given body, the survivors are
exactly the occurrences wholly equal (all fields) to the first-encountered
record with that body lying in surviving entries; in particular, when all
input records are pairwise distinct and the entries' `repo:file` keys are
pairwise distinct, exactly one record with each present body survives, and
it is the first one encountered in input order. -/
theorem c2_amended (data : List FileEntry) (b : String) (t : TestRecord)
    (h1 : (allTests data).Nodup)
    (h2 : (data.map entryKey).Nodup)
    (h3 : (allTests data).find? (fun x => x.body == b) = some t) :
    ((deduplicated_data data).flatMap (fun e => e.tests)).filter
      (fun x => x.body == b) = [t] := by
  rw [survivors_eq data h2, List.filter_filter]
  have htmem : t ∈ allTests data := List.mem_of_find?_eq_some h3
  have htb : t.body = b := by
    have := List.find?_some h3
    simpa using this
  have hkt : keepTest (buildUniqueTests data) t = true := by
    unfold keepTest
    rw [lookupUT_buildUnique, htb, h3]
    simp
  apply filter_eq_singleton _ _ _ h1 htmem
  · simp [hkt, htb]
  · intro x hx hq
    simp only [Bool.and_eq_true] at hq
    have hxb : x.body = b := by simpa using hq.1
    have hkx := hq.2
    unfold keepTest at hkx
    rw [lookupUT_buildUnique, hxb, h3] at hkx
    simp only [Option.isSome_some, Bool.true_and, decide_eq_true_eq] at hkx
    exact (Option.some.injEq _ _ ▸ hkx).symm

/-- C2 (witness): with two distinct records sharing a body in entries with
distinct keys, exactly the first-encountered record survives. -/
theorem c2_witness :
    ((deduplicated_data pairData).flatMap (fun e => e.tests)).filter
      (fun x => x.body == ("assert True")) = [recA] :=
  c2_amended pairData ("assert True") recA (by decide) (by decide) (by decide)

/-! Helper lemmas about the normalizer. -/

theorem normalize_inner_fst (black : String → Except String String) :
    ∀ (ts : List TestRecord) (acc : List TestRecord) (n : Nat),
    (ts.foldl (fun (p : List TestRecord × Nat) t =>
      let normalized := normalize_code black t.body
      (p.1 ++ [⟨t.name, normalized, t.file, t.cls⟩],
       p.2 + (if t.body = normalized then 0 else 1))) (acc, n)).1
      = acc ++ ts.map (normalizeTest black) := by
  intro ts
  induction ts with
  | nil => intro acc n; simp
  | cons t ts ih =>
    intro acc n
    simp only [List.foldl_cons]
    rw [ih]
    simp [normalizeTest]

theorem normalize_dataset_general (black : String → Except String String)
    (data : List FileEntry) :
    ∀ (accL : List FileEntry) (n s : Nat),
    (data.foldl (fun acc entry =>
      let r := entry.tests.foldl (fun (p : List TestRecord × Nat) t =>
        let normalized := normalize_code black t.body
        (p.1 ++ [⟨t.name, normalized, t.file, t.cls⟩],
         p.2 + (if t.body = normalized then 0 else 1))) ([], acc.2.1)
      (acc.1 ++ [⟨entry.repo, entry.file, r.1⟩], r.2, acc.2.2)) (accL, n, s)).1
        = accL ++ data.map (normalizeEntry black) ∧
    (data.foldl (fun acc entry =>
      let r := entry.tests.foldl (fun (p : List TestRecord × Nat) t =>
        let normalized := normalize_code black t.body
        (p.1 ++ [⟨t.name, normalized, t.file, t.cls⟩],
         p.2 + (if t.body = normalized then 0 else 1))) ([], acc.2.1)
      (acc.1 ++ [⟨entry.repo, entry.file, r.1⟩], r.2, acc.2.2)) (accL, n, s)).2.2 = s := by
  induction data with
  | nil => intro accL n s; simp
  | cons e tail ih =>
    intro accL n s
    simp only [List.foldl_cons]
    rw [normalize_inner_fst]
    have h := ih (accL ++ [⟨e.repo, e.file, [] ++ e.tests.map (normalizeTest black)⟩])
      ((e.tests.foldl (fun (p : List TestRecord × Nat) t =>
        let normalized := normalize_code black t.body
        (p.1 ++ [⟨t.name, normalized, t.file, t.cls⟩],
         p.2 + (if t.body = normalized then 0 else 1))) ([], n)).2) s
    constructor
    · rw [h.1]
      simp [normalizeEntry]
    · exact h.2

/-- C7: per-test normalization is atomic — `normalize_code` either fully
succeeds, returning the formatter output with the two textual touch-ups
applied, or (when the formatter collaborator fails) returns the original
body completely unchanged — and the normalization pass maps the dataset
entrywise, never dropping a test. -/
theorem c7_atomic (black : String → Except String String) (b : String)
    (data : List FileEntry) :
    ((∃ f, black b = Except.ok f ∧ normalize_code black b = subDocstring (subImport f)) ∨
      ((∃ e, black b = Except.error e) ∧ normalize_code black b = b)) ∧
    (normalize_dataset black data).1 = data.map (normalizeEntry black) := by
  constructor
  · cases hb : black b with
    | ok f => exact Or.inl ⟨f, rfl, by simp [normalize_code, hb]⟩
    | error e => exact Or.inr ⟨⟨e, rfl⟩, by simp [normalize_code, hb]⟩
  · exact (normalize_dataset_general black data [] 0 0).1

/-- C5 (counterexample): with a formatter that fails on the only test body,
the normalization fails for one test (original retained) yet the skip tally
reported by the pass is 0, not 1. -/
theorem c5_cex :
    blackFail ("b") = Except.error ("fmt") ∧
    (normalize_dataset blackFail d5).2.2 = 0 ∧
    (normalize_dataset blackFail d5).1 = d5 :=
  ⟨rfl, by decide, by decide⟩

/-- C5 (amended): normalization failures are caught per-test inside
`normalize_code` (which logs the warning) and the original body is
retained, but the skip tally of the normalization pass is always 0 — the
per-test handler that increments it can only catch exceptions escaping
`normalize_code`, which never happen — so the tally equals the number of
failed tests only when that number is 0. -/
theorem c5_amended (black : String → Except String String) (data : List FileEntry) :
    (normalize_dataset black data).2.2 = 0 ∧
    (normalize_dataset black data).1 = data.map (normalizeEntry black) ∧
    (∀ s e, black s = Except.error e → normalize_code black s = s) := by
  refine ⟨(normalize_dataset_general black data [] 0 0).2,
    (normalize_dataset_general black data [] 0 0).1, ?_⟩
  intro s e he
  simp [normalize_code, he]

/-- C5 (witness): the amended statement at the failing-formatter scenario:
the body is retained and the tally is 0. -/
theorem c5_witness :
    normalize_code blackFail ("b") = ("b") ∧
    (normalize_dataset blackFail d5).2.2 = 0 :=
  ⟨(c5_amended blackFail d5).2.2 ("b") ("fmt") rfl, (c5_amended blackFail d5).1⟩

/-- C8 (counterexample): idempotence of `normalize_code` is not a property
of the pipeline itself: with a formatter collaborator satisfying the
spec's contract (deterministically reformat or fail) that appends a
newline, normalizing twice differs from normalizing once. -/
theorem c8_cex :
    normalize_code blackNl (normalize_code blackNl ("x")) ≠ normalize_code blackNl ("x") := by
  decide

/-- C8 (amended): `normalize_code` is idempotent on an input whenever the
formatter maps the first pass's output to itself and the two textual
touch-ups fix that output — e.g. for a formatter whose outputs are fixed
points; the pipeline structure alone does not guarantee idempotence. -/
theorem c8_amended (black : String → Except String String) (b : String)
    (h1 : ∀ t, black b = Except.ok t →
      black (subDocstring (subImport t)) = Except.ok (subDocstring (subImport t)))
    (h2 : ∀ t, black b = Except.ok t →
      subImport (subDocstring (subImport t)) = subDocstring (subImport t))
    (h3 : ∀ t, black b = Except.ok t →
      subDocstring (subDocstring (subImport t)) = subDocstring (subImport t)) :
    normalize_code black (normalize_code black b) = normalize_code black b := by
  cases hb : black b with
  | ok f =>
    have hfb : normalize_code black b = subDocstring (subImport f) := by
      simp [normalize_code, hb]
    rw [hfb]
    simp [normalize_code, h1 f hb, h2 f hb, h3 f hb]
  | error e =>
    have hfb : normalize_code black b = b := by simp [normalize_code, hb]
    rw [hfb]
    exact hfb

/-- C8 (witness): with the identity formatter, normalization of `"x"` is
idempotent. -/
theorem c8_witness :
    normalize_code blackId (normalize_code blackId ("x")) = normalize_code blackId ("x") := by
  apply c8_amended blackId ("x")
  · intro t h
    rfl
  · intro t h
    cases h
    decide
  · intro t h
    cases h
    decide

/-! Helper lemmas about candidate-file selection: an occurrence of a
separator-free substring in a `/`-joined path lies within a single
component. -/

theorem pyIn_iff_sub (needle hay : String) :
    pyIn needle hay = true ↔ needle.data <:+: hay.data := by
  unfold pyIn
  rw [List.any_eq_true]
  constructor
  · rintro ⟨t, ht, hp⟩
    rw [List.mem_tails] at ht
    rw [List.isPrefixOf_iff_prefix] at hp
    exact List.infix_iff_prefix_suffix.mpr ⟨t, hp, ht⟩
  · intro h
    rcases List.infix_iff_prefix_suffix.mp h with ⟨t, hp, hs⟩
    exact ⟨t, (List.mem_tails _ _).mpr hs, List.isPrefixOf_iff_prefix.mpr hp⟩

theorem prefix_drop_sep {nd : List Char} (hns : Char.ofNat 47 ∉ nd) :
    ∀ (xs b : List Char), nd <+: xs ++ (Char.ofNat 47 :: b) → nd <+: xs := by
  induction nd with
  | nil => intro xs b _; exact List.nil_prefix
  | cons c nd ih =>
    intro xs b h
    simp only [List.mem_cons, not_or] at hns
    cases xs with
    | nil =>
      exfalso
      rw [List.nil_append, List.cons_prefix_cons] at h
      exact hns.1 h.1.symm
    | cons x xs =>
      rw [List.cons_append, List.cons_prefix_cons] at h
      exact List.cons_prefix_cons.mpr ⟨h.1, ih hns.2 xs b h.2⟩

theorem infix_split_sep {nd : List Char} (hne : nd ≠ []) (hns : Char.ofNat 47 ∉ nd) :
    ∀ (a b : List Char), nd <:+: a ++ (Char.ofNat 47 :: b) → nd <:+: a ∨ nd <:+: b := by
  intro a
  induction a with
  | nil =>
    intro b h
    rw [List.nil_append] at h
    rcases List.infix_cons_iff.mp h with hp | hi
    · exfalso
      cases nd with
      | nil => exact hne rfl
      | cons c nd =>
        rw [List.cons_prefix_cons] at hp
        apply hns
        rw [← hp.1]
        exact List.mem_cons_self c nd
    · exact Or.inr hi
  | cons x a ih =>
    intro b h
    rw [List.cons_append] at h
    rcases List.infix_cons_iff.mp h with hp | hi
    · have : nd <+: x :: a := by
        have := prefix_drop_sep hns (x :: a) b
        rw [List.cons_append] at this
        exact this hp
      exact Or.inl this.isInfix
    · rcases ih b hi with h1 | h2
      · exact Or.inl (List.infix_cons_iff.mpr (Or.inr h1))
      · exact Or.inr h2

theorem intercalate_cons_cons_sep (sep : List Char) (a b : List Char) (rest : List (List Char)) :
    List.intercalate sep (a :: b :: rest) = a ++ sep ++ List.intercalate sep (b :: rest) := by
  simp [List.intercalate, List.intersperse_cons_cons, List.flatten]

theorem infix_intercalate_sep {nd : List Char} (hne : nd ≠ []) (hns : Char.ofNat 47 ∉ nd) :
    ∀ (ls : List (List Char)),
      (nd <:+: List.intercalate [Char.ofNat 47] ls ↔ ∃ l ∈ ls, nd <:+: l)
  | [] => by
    constructor
    · intro h
      exfalso
      rw [show List.intercalate [Char.ofNat 47] ([] : List (List Char)) = [] from rfl] at h
      exact hne (List.eq_nil_of_infix_nil h)
    · rintro ⟨l, hl, _⟩
      cases hl
  | [a] => by
    rw [show List.intercalate [Char.ofNat 47] [a] = a by simp [List.intercalate]]
    simp
  | a :: b :: rest => by
    rw [intercalate_cons_cons_sep, List.append_assoc, List.singleton_append]
    constructor
    · intro h
      rcases infix_split_sep hne hns a _ h with ha | hrest
      · exact ⟨a, by simp, ha⟩
      · rcases (infix_intercalate_sep hne hns (b :: rest)).mp hrest with ⟨l, hl, h2⟩
        exact ⟨l, List.mem_cons_of_mem a hl, h2⟩
    · rintro ⟨l, hl, h2⟩
      rcases List.mem_cons.mp hl with rfl | hl'
      · exact h2.trans (List.prefix_append l _).isInfix
      · have hrest : nd <:+: List.intercalate [Char.ofNat 47] (b :: rest) :=
          (infix_intercalate_sep hne hns (b :: rest)).mpr ⟨l, hl', h2⟩
        exact hrest.trans ((List.suffix_cons _ _).trans (List.suffix_append _ _)).isInfix

theorem lower_intercalate_sep :
    ∀ (ls : List (List Char)),
      (List.intercalate [Char.ofNat 47] ls).map Char.toLower
        = List.intercalate [Char.ofNat 47] (ls.map (fun l => l.map Char.toLower))
  | [] => by simp [List.intercalate]
  | [a] => by simp [List.intercalate]
  | a :: b :: rest => by
    have hsep : ([Char.ofNat 47] : List Char).map Char.toLower = [Char.ofNat 47] := by decide
    rw [intercalate_cons_cons_sep]
    simp only [List.map_append, hsep]
    rw [lower_intercalate_sep (b :: rest)]
    simp only [List.map_cons]
    rw [intercalate_cons_cons_sep]

theorem pyIn_test_joinPath (comps : List String) :
    pyIn ("test") (pyLower (joinPath comps)) = true ↔
      ∃ c ∈ comps, pyIn ("test") (pyLower c) = true := by
  rw [pyIn_iff_sub]
  have hd : (pyLower (joinPath comps)).data
      = List.intercalate [Char.ofNat 47] (comps.map (fun c => c.data.map Char.toLower)) := by
    show (String.mk (List.intercalate [Char.ofNat 47] (comps.map String.data))).data.map Char.toLower
      = _
    rw [lower_intercalate_sep]
    rw [List.map_map]
    rfl
  rw [hd, infix_intercalate_sep (by decide) (by decide)]
  constructor
  · rintro ⟨l, hl, h2⟩
    rcases List.mem_map.mp hl with ⟨c, hc, rfl⟩
    exact ⟨c, hc, (pyIn_iff_sub _ _).mpr h2⟩
  · rintro ⟨c, hc, h2⟩
    exact ⟨c.data.map Char.toLower, List.mem_map_of_mem _ hc, (pyIn_iff_sub _ _).mp h2⟩


/-- C6: a walked file is selected as a candidate test file iff its name
ends in `.py` and either the file name or some component of its directory
path inside the clone root — the repository directory name or a descendant
directory — contains `test` case-insensitively; consequently files of
repositories where no such component contains `test` are never in
`test_files`, hence never parsed.  (The fixed `../clones` prefix components
contain no `test`, and a `test` occurrence in the joined root string cannot
span a `/`.) -/
theorem c6_selection (repoName fileName : String) (rel : List String)
    (walked : List (List String × String))
    (hmem : (repoPathComps repoName ++ rel, fileName) ∈ walked) :
    ((repoPathComps repoName ++ rel, fileName) ∈ test_files walked ↔
      (pyEndsWith fileName (".py") = true ∧
        (pyIn ("test") (pyLower fileName) = true ∨
          ∃ c ∈ repoName :: rel, pyIn ("test") (pyLower c) = true))) := by
  unfold test_files
  rw [List.mem_filter]
  simp only [hmem, true_and]
  unfold selectFile
  rw [Bool.and_eq_true, Bool.or_eq_true]
  constructor
  · rintro ⟨h1, h2⟩
    refine ⟨h1, ?_⟩
    rcases h2 with h2 | h2
    · exact Or.inl h2
    · rcases (pyIn_test_joinPath _).mp h2 with ⟨c, hc, hcin⟩
      rcases List.mem_append.mp hc with hcl | hcr
      · simp only [repoPathComps, List.mem_cons, List.not_mem_nil, or_false] at hcl
        rcases hcl with rfl | rfl | rfl
        · exact absurd hcin (by decide)
        · exact absurd hcin (by decide)
        · exact Or.inr ⟨c, List.mem_cons_self _ _, hcin⟩
      · exact Or.inr ⟨c, List.mem_cons_of_mem _ hcr, hcin⟩
  · rintro ⟨h1, h2⟩
    refine ⟨h1, ?_⟩
    rcases h2 with h2 | ⟨c, hc, hcin⟩
    · exact Or.inl h2
    · refine Or.inr ((pyIn_test_joinPath _).mpr ?_)
      rcases List.mem_cons.mp hc with rfl | hcr
      · exact ⟨c, by simp [repoPathComps], hcin⟩
      · exact ⟨c, List.mem_append_right _ hcr, hcin⟩

/-- C6 (witness): a `.py` file under a `tests` directory of a clone is
selected. -/
theorem c6_witness :
    (repoPathComps ("myrepo") ++ [("tests")], ("a.py")) ∈ test_files c6walked :=
  (c6_selection ("myrepo") ("a.py") [("tests")] c6walked (by decide)).mpr
    ⟨by decide, Or.inr ⟨("tests"), by decide, by decide⟩⟩
